import Mathlib

/-!
Verification of the SemanticFusion probability-fusion core.

This file gives a shallow embedding, in Lean 4, of the CPU-side code of
`SemanticFusionInterface` (probability-table compaction, the per-surfel
multiplicative fusion update, the CRF write-back filter, the argmax image
export) together with the colour-scheme loader of `main.cpp`, and proves or
refutes the behavioural claims made about them.

Floating-point values are modelled as rationals (`ℚ`); `NaN` is modelled
explicitly where a claim depends on it (the CRF write-back filter).  Flat
GPU/CPU buffers are modelled as functions `ℕ → ℚ`, tables of rows as lists.
Operations of this repository whose bodies live in CUDA kernels that are not
part of the analysed sources are modelled from the specification and are
marked `Modelled from the spec:` in their doc comment.
-/

/-! ## Compaction (`remove_index`, SemanticFusionInterface part_000 lines 56-72) -/

/-- Semantics of `std::move(first, last, dest)` on a vector, for a
destination at or before the source range: the segment `[first, last)` is
copied to positions starting at `dest`, everything else is untouched, and
the length is unchanged (when the ranges are in bounds). -/
def moveRange (v : List α) (first last dest : ℕ) : List α :=
  v.take dest ++ ((v.drop first).take (last - first)) ++ v.drop (dest + (last - first))

/-- The loop of `remove_index`: for each removal index `r` (with `down_by`
removals already processed), move the block between `r + 1` and the next
removal index (or the vector size) down to position `r - down_by`. -/
def remove_index_aux : List α → List ℕ → ℕ → ℕ → List α
  | v, [], _, _ => v
  | v, r :: rest, down_by, size =>
    let next := match rest with
      | [] => size
      | r2 :: _ => r2
    remove_index_aux (moveRange v (r + 1) next (r - down_by)) rest (down_by + 1) size

/-- Embedding of `remove_index` (part_000 lines 56-72): run the block-move
loop, then `resize` to the original size minus the number of removals. -/
def remove_index (v : List α) (to_remove : List ℕ) : List α :=
  (remove_index_aux v to_remove 0 v.length).take (v.length - to_remove.length)

/-- Specification-side compaction: keep exactly the elements whose index is
not in `D`, in order (`i` is the index of the first element of the list). -/
def keepAux : List α → List ℕ → ℕ → List α
  | [], _, _ => []
  | a :: t, D, i => if i ∈ D then keepAux t D (i + 1) else a :: keepAux t D (i + 1)

/-- Keep the elements of `v` whose index is not in `D`, in order. -/
def keep (v : List α) (D : List ℕ) : List α :=
  keepAux v D 0

/-! ## Per-surfel fusion update (`UpdateSurfelProbabilities`, part_000 lines 120-145) -/

/-- The second loop of `UpdateSurfelProbabilities`: divide every product by
the (already accumulated) normalisation denominator and track the running
maximum with a greater-or-equal comparison, exactly as the source does
(`surfel_probs[c] /= denom; if (surfel_probs[c] >= max_prob) ...`).
Returns the normalised row together with the final `(max_prob, max_class)`. -/
def normMaxAux (denom : ℚ) : List ℚ → ℕ → ℚ → ℤ → List ℚ × ℚ × ℤ
  | [], _, mp, mc => ([], mp, mc)
  | p :: rest, c, mp, mc =>
    let q := p / denom
    let pr := if mp ≤ q then (q, (c : ℤ)) else (mp, mc)
    let out := normMaxAux denom rest (c + 1) pr.1 pr.2
    (q :: out.1, out.2)

/-- The normalisation denominator of `UpdateSurfelProbabilities`: the sum of
the pointwise products `surfel_probs[c] * class_probs[c]` — and nothing
more; the source adds no epsilon term to it. -/
def normDenominator (row obs : List ℚ) : ℚ :=
  (List.zipWith (· * ·) row obs).sum

/-- The multiplicative fusion update of `UpdateSurfelProbabilities`
(lines 127-140): multiply the row by the observation, accumulate the
denominator, then normalise while computing the running argmax
(`max_prob` starts at `0.0`, `max_class` at `-1`). -/
def surfelFusion (row obs : List ℚ) : List ℚ × ℚ × ℤ :=
  normMaxAux (normDenominator row obs) (List.zipWith (· * ·) row obs) 0 0 (-1)

/-- Embedding of the whole of `UpdateSurfelProbabilities` (lines 120-145):
the updated row plus the returned class — the argmax class when the maximum
probability reaches `colour_threshold_`, the sentinel `-1` otherwise. -/
def updateSurfelProbabilities (row obs : List ℚ) (thr : ℚ) : List ℚ × ℤ :=
  ((surfelFusion row obs).1,
    if thr ≤ (surfelFusion row obs).2.1 then (surfelFusion row obs).2.2 else -1)

/-! ## CRF write-back (`CRFUpdate`, part_000 lines 185-225) -/

/-- A float value as seen by the CRF write-back filter: either an ordinary
(rational) value or NaN.  Both comparisons `x > 0.0` and `x < 1.0` are false
for NaN, following IEEE comparison semantics. -/
inductive CrfVal where
  | nan : CrfVal
  | val : ℚ → CrfVal
deriving DecidableEq

/-- The filter `r > 0.0 && r < 1.0` of the source (line 215), with NaN
comparing false on both sides. -/
def strictlyInside01 : CrfVal → Bool
  | CrfVal.nan => false
  | CrfVal.val q => decide (0 < q) && decide (q < 1)

/-- The rational payload of a CRF result (0 for NaN; it is only ever read
after the filter accepted the value). -/
def crfValue : CrfVal → ℚ
  | CrfVal.nan => 0
  | CrfVal.val q => q

/-- One conditional write-back of `CRFUpdate` (lines 214-217): cell
`j * max_components_ + id` of the flat probability table is overwritten by
`resulting_probs[i * num_classes_ + j]` exactly when that result is
strictly between 0 and 1.  `i` indexes `valid_ids`, and in `CRFUpdate`
`valid_ids[i] = i`. -/
def crfWriteCell (maxc numc : ℕ) (res : ℕ → CrfVal) (t : ℕ → ℚ) (i j : ℕ) : ℕ → ℚ :=
  if strictlyInside01 (res (i * numc + j)) then
    Function.update t (j * maxc + i) (crfValue (res (i * numc + j)))
  else t

/-- The inner (per-class) loop of the write-back. -/
def crfWriteRow (maxc numc : ℕ) (res : ℕ → CrfVal) (t : ℕ → ℚ) (i : ℕ) : ℕ → ℚ :=
  (List.range numc).foldl (fun t' j => crfWriteCell maxc numc res t' i j) t

/-- The write-back double loop of `CRFUpdate` (lines 211-219), over all
`current_table_size_` rows and `num_classes_` classes. -/
def crfWriteBack (maxc numc n : ℕ) (res : ℕ → CrfVal) (t : ℕ → ℚ) : ℕ → ℚ :=
  (List.range n).foldl (fun t' i => crfWriteRow maxc numc res t' i) t

/-! ## Table synchronizer (`UpdateProbabilityTable`, part_000 lines 99-117) -/

/-- A fresh probability row: uniform distribution over `numc` classes. -/
def uniformRow (numc : ℕ) : List ℚ := List.replicate numc (1 / (numc : ℚ))

/-- A fresh summary entry: sentinel class `-1` with uniform best probability
(source comment, part_000 line 98: the added surfel is initialised with
uniform probability and `-1` class label). -/
def freshSummary (numc : ℕ) : ℤ × ℚ := (-1, 1 / (numc : ℚ))

/-- Modelled from the spec: the CUDA kernel `updateProbabilityTable`, whose
body is not among the analysed sources (part_000 lines 109-112 is its call
site), produces in the inactive buffer a table of logical width `newWidth`
in which surviving rows are compacted over the deleted identifiers with
their content preserved, and rows beyond the survivors are freshly
initialised to the uniform distribution. -/
def updateProbabilityTableModel (oldRows : List (List ℚ)) (deleted : List ℕ)
    (newWidth numc : ℕ) : List (List ℚ) :=
  (List.range newWidth).map (fun j => (keep oldRows deleted).getD j (uniformRow numc))

/-- Modelled from the spec: the same kernel compacts the summary buffer in
lock-step with the probability table. -/
def updateSummaryModel (oldSummary : List (ℤ × ℚ)) (deleted : List ℕ)
    (newWidth numc : ℕ) : List (ℤ × ℚ) :=
  (List.range newWidth).map (fun j => (keep oldSummary deleted).getD j (freshSummary numc))

/-- The double-buffered state of `SemanticFusionInterface`: active and
inactive probability tables, active and inactive summaries, and the logical
width `current_table_size_`. -/
structure SemanticFusionState where
  activeTable : List (List ℚ)
  bufferTable : List (List ℚ)
  activeSummary : List (ℤ × ℚ)
  bufferSummary : List (ℤ × ℚ)
  tableSize : ℕ

/-- Embedding of `UpdateProbabilityTable` (part_000 lines 99-117): run the
reconciliation kernel into the inactive buffers, swap the buffer pairs, and
set `current_table_size_` to the new width. -/
def UpdateProbabilityTable (s : SemanticFusionState) (deleted : List ℕ)
    (newWidth numc : ℕ) : SemanticFusionState :=
  { activeTable := updateProbabilityTableModel s.activeTable deleted newWidth numc
    bufferTable := s.activeTable
    activeSummary := updateSummaryModel s.activeSummary deleted newWidth numc
    bufferSummary := s.activeSummary
    tableSize := newWidth }

/-! ## Summary-cache buffer layout (claim C10) -/

/-- Read the cached best class of row `id` from the flat summary buffer, as
the source readers do (`max_class = class_max_gpu_->cpu_data()`, part_000
line 229; `class_max_gpu_->gpu_data()` at lines 169 and 223). -/
def summaryClassAt (buf : ℕ → ℚ) (id : ℕ) : ℚ := buf id

/-- Read the cached best probability of row `id` from the flat summary
buffer, as the source readers do (`max_prob = cpu_data() + max_components_`,
part_000 line 228; `gpu_data() + map_size` at line 169; `gpu_data() +
max_components_` at line 223). -/
def summaryProbAt (maxc : ℕ) (buf : ℕ → ℚ) (id : ℕ) : ℚ := buf (maxc + id)

/-- Modelled from the spec: the summary-writing kernels
(`fuseSemanticProbabilities`, `updateMaxClass`; bodies not among the
analysed sources) store row `id`'s best class at offset `id` and its best
probability at offset `max_components_ + id` of one flat buffer of length
`2 * max_components_`. -/
def writeSummary (maxc : ℕ) (buf : ℕ → ℚ) (id : ℕ) (cls p : ℚ) : ℕ → ℚ :=
  Function.update (Function.update buf id cls) (maxc + id) p

/-! ## Argmax export (`SaveArgMaxPredictions`, part_000 lines 227-258) -/

/-- Linear index of identity-raster pixel `(2h + y, 2w + x)` in the
640-wide surfel-id raster (part_000 line 243). -/
def patchPixelIndex (h w x y : ℕ) : ℕ := ((h * 2) + y) * 640 + (w * 2 + x)

/-- The four `(x, y)` offsets of the 2x2 patch, in the loop order of the
source (`x` outer, `y` inner). -/
def patchOffsets : List (ℕ × ℕ) := [(0, 0), (0, 1), (1, 0), (1, 1)]

/-- The surfel identifiers of the 2x2 patch at output pixel `(h, w)`, in
visit order. -/
def patchIds (surfelIds : ℕ → ℤ) (h w : ℕ) : List ℤ :=
  patchOffsets.map (fun xy => surfelIds (patchPixelIndex h w xy.1 xy.2))

/-- One step of the patch scan of `SaveArgMaxPredictions` (lines 241-251):
an id participates only if `0 < id < current_table_size_`, and it replaces
the running best only if its cached probability strictly exceeds the
running maximum. -/
def bestStep (n : ℤ) (maxProb : ℤ → ℚ) (bestCls : ℤ → ℤ) (acc : ℚ × ℤ) (id : ℤ) : ℚ × ℤ :=
  if 0 < id ∧ id < n then
    (if acc.1 < maxProb id then (maxProb id, bestCls id) else acc)
  else acc

/-- The scan over the four patch pixels, starting from
`(this_max_prob, this_max_class) = (0.0, 0)`. -/
def saveArgMaxPixel (n : ℤ) (maxProb : ℤ → ℚ) (bestCls : ℤ → ℤ)
    (surfelIds : ℕ → ℤ) (h w : ℕ) : ℚ × ℤ :=
  (patchIds surfelIds h w).foldl (bestStep n maxProb bestCls) (0, 0)

/-- The three channels written for output pixel `(h, w)` (lines 252-254):
the selected class, truncated into an unsigned byte, replicated across all
three channels of the `CV_8UC3` image. -/
def saveArgMaxChannels (n : ℤ) (maxProb : ℤ → ℚ) (bestCls : ℤ → ℤ)
    (surfelIds : ℕ → ℤ) (h w : ℕ) : ℕ × ℕ × ℕ :=
  (((saveArgMaxPixel n maxProb bestCls surfelIds h w).2 % 256).toNat,
   ((saveArgMaxPixel n maxProb bestCls surfelIds h w).2 % 256).toNat,
   ((saveArgMaxPixel n maxProb bestCls surfelIds h w).2 % 256).toNat)

/-! ## Colour-scheme loader (`load_colour_scheme_`, main.cpp lines 38-57) -/

/-- A class-colour entry as constructed by `main.cpp`
(`ClassColour(textual_prefix, r, g, b)`); `label` is the textual class name
that leads each data row. -/
structure ClassColour where
  label : String
  r : ℤ
  g : ℤ
  b : ℤ
deriving DecidableEq

/-- The parsed content of one line of the colour-scheme file: the textual
class name followed by `id r g b` (stream extraction is abstracted to
pre-tokenised lines). -/
structure ColourLine where
  label : String
  id : ℤ
  r : ℤ
  g : ℤ
  b : ℤ

/-- The default-constructed `ClassColour` that fills the initial
`std::vector<ClassColour>(num_classes)`. -/
def defaultColour : ClassColour := { label := "", r := 0, g := 0, b := 0 }

/-- The line loop of `load_colour_scheme_` (main.cpp lines 42-55):
`line_number` starts at 1, and only lines with `line_number > 2` are parsed
and stored at index `id`, after the `assert(id < num_classes)` check
(modelled as an error result).  A negative id indexes out of bounds in the
source; the model clamps it through `Int.toNat`, and the theorems assume
non-negative ids. -/
def loadColourLoop (numc : ℕ) : List ColourLine → ℕ → List ClassColour →
    Except Unit (List ClassColour)
  | [], _, acc => Except.ok acc
  | l :: rest, ln, acc =>
    if ln > 2 then
      if l.id < (numc : ℤ) then
        loadColourLoop numc rest (ln + 1)
          (acc.set l.id.toNat { label := l.label, r := l.r, g := l.g, b := l.b })
      else Except.error ()
    else loadColourLoop numc rest (ln + 1) acc

/-- Embedding of `load_colour_scheme_` (main.cpp lines 38-57). -/
def load_colour_scheme_ (fileLines : List ColourLine) (numc : ℕ) :
    Except Unit (List ClassColour) :=
  loadColourLoop numc fileLines 1 (List.replicate numc defaultColour)

/-! ## Lemmas about `keepAux` -/

theorem keepAux_nil (w : List α) (i : ℕ) : keepAux w [] i = w := by
  induction w generalizing i with
  | nil => rfl
  | cons a t ih => simp [keepAux, ih]

theorem keepAux_congr (w : List α) (D D' : List ℕ) (i : ℕ)
    (h : ∀ j, i ≤ j → j < i + w.length → (j ∈ D ↔ j ∈ D')) :
    keepAux w D i = keepAux w D' i := by
  induction w generalizing i with
  | nil => rfl
  | cons a t ih =>
    have hhead : (i ∈ D) ↔ (i ∈ D') := h i le_rfl (by simp)
    have htail : keepAux t D (i + 1) = keepAux t D' (i + 1) :=
      ih (i + 1) (fun j hj hj' => h j (by omega) (by simp only [List.length_cons]; omega))
    by_cases hm : i ∈ D
    · rw [keepAux, keepAux, if_pos hm, if_pos (hhead.mp hm), htail]
    · rw [keepAux, keepAux, if_neg hm, if_neg (fun hc => hm (hhead.mpr hc)), htail]

theorem keepAux_all_lt (w : List α) (D : List ℕ) (i : ℕ)
    (h : ∀ x ∈ D, x < i) : keepAux w D i = w := by
  induction w generalizing i with
  | nil => rfl
  | cons a t ih =>
    rw [keepAux, if_neg (fun hc => absurd (h i hc) (by omega)),
      ih (i + 1) (fun x hx => (h x hx).trans (by omega))]

theorem keepAux_append (w₁ w₂ : List α) (D : List ℕ) (i : ℕ) :
    keepAux (w₁ ++ w₂) D i = keepAux w₁ D i ++ keepAux w₂ D (i + w₁.length) := by
  induction w₁ generalizing i with
  | nil => simp [keepAux]
  | cons a t ih =>
    have harith : i + 1 + t.length = i + (a :: t).length := by
      simp only [List.length_cons]; omega
    by_cases hm : i ∈ D
    · rw [List.cons_append, keepAux, if_pos hm, keepAux, if_pos hm, ih, harith]
    · rw [List.cons_append, keepAux, if_neg hm, keepAux, if_neg hm, ih, harith,
        List.cons_append]

theorem keepAux_skip (j : ℕ) (w : List α) (D : List ℕ) (i : ℕ)
    (h : ∀ x ∈ D, i + j ≤ x) :
    keepAux w D i = w.take j ++ keepAux (w.drop j) D (i + j) := by
  induction j generalizing w i with
  | zero => simp
  | succ j ih =>
    cases w with
    | nil => simp [keepAux]
    | cons a t =>
      have hnot : i ∉ D := fun hc => absurd (h i hc) (by omega)
      rw [keepAux, if_neg hnot, ih t (i + 1) (fun x hx => by have := h x hx; omega)]
      simp only [List.take_succ_cons, List.drop_succ_cons, List.cons_append]
      have : i + 1 + j = i + (j + 1) := by omega
      rw [this]

theorem nodup_bounded_length_le (D : List ℕ) (a m : ℕ) (hnd : D.Nodup)
    (h : ∀ x ∈ D, a ≤ x ∧ x < a + m) : D.length ≤ m := by
  have hsub : D ⊆ List.range' a m :=
    fun x hx => List.mem_range'_1.mpr ⟨(h x hx).1, (h x hx).2⟩
  have := (hnd.subperm hsub).length_le
  simpa using this

theorem keepAux_length (w : List α) (D : List ℕ) (i : ℕ) (hnd : D.Nodup)
    (h : ∀ x ∈ D, i ≤ x ∧ x < i + w.length) :
    (keepAux w D i).length = w.length - D.length := by
  induction w generalizing D i with
  | nil =>
    have : D = [] := List.eq_nil_iff_forall_not_mem.mpr
      (fun x hx => by have := h x hx; simp at this; omega)
    simp [this, keepAux]
  | cons a t ih =>
    by_cases hm : i ∈ D
    · rw [keepAux, if_pos hm]
      have hcongr : keepAux t D (i + 1) = keepAux t (D.erase i) (i + 1) :=
        keepAux_congr t D (D.erase i) (i + 1)
          (fun j hj _ => (List.mem_erase_of_ne (by omega : j ≠ i)).symm)
      have hlen : (keepAux t (D.erase i) (i + 1)).length = t.length - (D.erase i).length :=
        ih (D.erase i) (i + 1) (hnd.erase i)
          (fun x hx => by
            have hxD : x ∈ D := List.mem_of_mem_erase hx
            have hxne : x ≠ i := (List.Nodup.mem_erase_iff hnd).mp hx |>.1
            have := h x hxD
            simp only [List.length_cons] at this ⊢
            omega)
      have herase : (D.erase i).length = D.length - 1 := List.length_erase_of_mem hm
      have hD1 : 1 ≤ D.length := List.length_pos_of_mem hm
      simp only [List.length_cons]
      rw [hcongr, hlen, herase]
      omega
    · rw [keepAux, if_neg hm]
      have hlen : (keepAux t D (i + 1)).length = t.length - D.length :=
        ih D (i + 1) hnd
          (fun x hx => by
            have hxi : i ≤ x := (h x hx).1
            have hxne : x ≠ i := fun hc => hm (hc ▸ hx)
            have := h x hx
            simp only [List.length_cons] at this ⊢
            omega)
      have hDle : D.length ≤ t.length :=
        nodup_bounded_length_le D (i + 1) t.length hnd
          (fun x hx => by
            have hxi : i ≤ x := (h x hx).1
            have hxne : x ≠ i := fun hc => hm (hc ▸ hx)
            have := h x hx
            simp only [List.length_cons] at this
            omega)
      simp only [List.length_cons, hlen]
      omega

theorem keep_getElem (v : List α) (D : List ℕ) (hnd : D.Nodup) (q : ℕ)
    (hq : q < v.length) (hqD : q ∉ D) :
    (keep v D)[q - (D.filter (fun x => x < q)).length]? = v[q]? := by
  have htakelen : (v.take q).length = q := by
    simp [List.length_take]; omega
  have h1 : keep v D = keepAux (v.take q) D 0 ++ keepAux (v.drop q) D q := by
    unfold keep
    conv_lhs => rw [← List.take_append_drop q v]
    rw [keepAux_append, htakelen, Nat.zero_add]
  have hdropq : v.drop q = v[q] :: v.drop (q + 1) := List.drop_eq_getElem_cons hq
  have h2 : keepAux (v.drop q) D q = v[q] :: keepAux (v.drop (q + 1)) D (q + 1) := by
    rw [hdropq, keepAux, if_neg hqD]
  have hA : (keepAux (v.take q) D 0).length = q - (D.filter (fun x => x < q)).length := by
    have hc : keepAux (v.take q) D 0 = keepAux (v.take q) (D.filter (fun x => x < q)) 0 :=
      keepAux_congr _ _ _ _ (fun j _ hj2 => by
        rw [Nat.zero_add, htakelen] at hj2
        simp only [List.mem_filter, decide_eq_true_eq]
        exact (and_iff_left hj2).symm)
    rw [hc, keepAux_length _ _ _ (hnd.filter _) (fun x hx => by
      simp only [List.mem_filter, decide_eq_true_eq] at hx
      rw [Nat.zero_add, htakelen]
      omega), htakelen]
  rw [h1, h2, ← hA, List.getElem?_append_right le_rfl, Nat.sub_self]
  simp [List.getElem?_eq_getElem hq]

/-! ## Lemmas about `moveRange` and the `remove_index` loop -/

theorem moveRange_length (v : List α) (first last dest : ℕ)
    (h1 : dest ≤ first) (h2 : first ≤ last) (h3 : last ≤ v.length) :
    (moveRange v first last dest).length = v.length := by
  simp [moveRange, List.length_take, List.length_drop]
  omega

theorem moveRange_take (v : List α) (first last dest : ℕ)
    (h1 : dest ≤ first) (h2 : first ≤ last) (h3 : last ≤ v.length) :
    (moveRange v first last dest).take (dest + (last - first))
      = v.take dest ++ (v.drop first).take (last - first) := by
  unfold moveRange
  have hlen : (v.take dest ++ (v.drop first).take (last - first)).length
      = dest + (last - first) := by
    simp [List.length_take, List.length_drop]
    omega
  rw [← hlen, List.take_left]

theorem moveRange_drop (v : List α) (first last dest : ℕ)
    (h1 : dest ≤ first) (h2 : first ≤ last) (h3 : last ≤ v.length) :
    (moveRange v first last dest).drop (dest + (last - first))
      = v.drop (dest + (last - first)) := by
  unfold moveRange
  have hlen : (v.take dest ++ (v.drop first).take (last - first)).length
      = dest + (last - first) := by
    simp [List.length_take, List.length_drop]
    omega
  rw [← hlen, List.drop_left]

theorem remove_index_aux_spec (rest : List ℕ) :
    ∀ (r : ℕ) (v : List α) (d : ℕ),
    List.Chain' (· < ·) (r :: rest) → (∀ x ∈ r :: rest, x < v.length) → d ≤ r →
    (remove_index_aux v (r :: rest) d v.length).take (v.length - d - (rest.length + 1))
      = v.take (r - d) ++ keepAux (v.drop (r + 1)) rest (r + 1) := by
  induction rest with
  | nil =>
    intro r v d hch hb hd
    have hr : r < v.length := hb r (by simp)
    simp only [remove_index_aux, List.length_nil, keepAux_nil]
    have e1 : v.length - d - (0 + 1) = (r - d) + (v.length - (r + 1)) := by omega
    rw [e1, moveRange_take v (r + 1) v.length (r - d) (by omega) (by omega) le_rfl]
    congr 1
    rw [← List.length_drop, List.take_length]
  | cons r2 rest' ih =>
    intro r v d hch hb hd
    have hr : r < v.length := hb r (by simp)
    have hr2 : r2 < v.length := hb r2 (by simp)
    obtain ⟨hrr2, hch2⟩ := List.chain'_cons.mp hch
    have hlen2 : (moveRange v (r + 1) r2 (r - d)).length = v.length :=
      moveRange_length v (r + 1) r2 (r - d) (by omega) (by omega) (by omega)
    have hstep : remove_index_aux v (r :: r2 :: rest') d v.length
        = remove_index_aux (moveRange v (r + 1) r2 (r - d)) (r2 :: rest') (d + 1) v.length := by
      simp only [remove_index_aux]
    have hIH := ih r2 (moveRange v (r + 1) r2 (r - d)) (d + 1) hch2
      (fun x hx => by rw [hlen2]; exact hb x (List.mem_cons_of_mem _ hx)) (by omega)
    rw [hlen2] at hIH
    have e2 : v.length - d - ((r2 :: rest').length + 1)
        = v.length - (d + 1) - (rest'.length + 1) := by
      simp only [List.length_cons]; omega
    rw [hstep, e2, hIH]
    have e3 : r2 - (d + 1) = (r - d) + (r2 - (r + 1)) := by omega
    have hA : (moveRange v (r + 1) r2 (r - d)).take (r2 - (d + 1))
        = v.take (r - d) ++ (v.drop (r + 1)).take (r2 - (r + 1)) := by
      rw [e3]
      exact moveRange_take v (r + 1) r2 (r - d) (by omega) (by omega) (by omega)
    have hB : (moveRange v (r + 1) r2 (r - d)).drop (r2 + 1) = v.drop (r2 + 1) := by
      have hd0 : (moveRange v (r + 1) r2 (r - d)).drop ((r - d) + (r2 - (r + 1)))
          = v.drop ((r - d) + (r2 - (r + 1))) :=
        moveRange_drop v (r + 1) r2 (r - d) (by omega) (by omega) (by omega)
      have e6 : r2 + 1 = ((r - d) + (r2 - (r + 1))) + (d + 2) := by omega
      rw [e6, ← List.drop_drop, hd0, List.drop_drop]
    rw [hA, hB]
    have hall : ∀ x ∈ r2 :: rest', (r + 1) + (r2 - (r + 1)) ≤ x := by
      intro x hx
      have hpw : ∀ y ∈ rest', r2 < y :=
        (List.pairwise_cons.mp (List.chain'_iff_pairwise.mp hch2)).1
      rcases List.mem_cons.mp hx with hx | hx
      · omega
      · have := hpw x hx; omega
    have hK : keepAux (v.drop (r + 1)) (r2 :: rest') (r + 1)
        = (v.drop (r + 1)).take (r2 - (r + 1))
          ++ keepAux ((v.drop (r + 1)).drop (r2 - (r + 1))) (r2 :: rest')
              ((r + 1) + (r2 - (r + 1))) :=
      keepAux_skip (r2 - (r + 1)) _ _ _ hall
    have e4 : (r + 1) + (r2 - (r + 1)) = r2 := by omega
    have e5 : (v.drop (r + 1)).drop (r2 - (r + 1)) = v.drop r2 := by
      rw [List.drop_drop, e4]
    rw [hK, e4, e5]
    have hdropr2 : v.drop r2 = v[r2] :: v.drop (r2 + 1) := List.drop_eq_getElem_cons hr2
    have hK2 : keepAux (v.drop r2) (r2 :: rest') r2
        = keepAux (v.drop (r2 + 1)) rest' (r2 + 1) := by
      rw [hdropr2, keepAux, if_pos (by simp)]
      exact keepAux_congr _ _ _ _ (fun j hj _ => by
        rw [List.mem_cons]
        exact or_iff_right (by omega : ¬ j = r2))
    rw [hK2, ← List.append_assoc]

theorem remove_index_eq_keep (v : List α) (D : List ℕ)
    (hs : List.Chain' (· < ·) D) (hb : ∀ x ∈ D, x < v.length) :
    remove_index v D = keep v D := by
  cases D with
  | nil =>
    unfold remove_index keep
    simp only [remove_index_aux, keepAux_nil, List.length_nil, Nat.sub_zero,
      List.take_length]
  | cons r rest =>
    have hr : r < v.length := hb r (by simp)
    have h1 : remove_index v (r :: rest)
        = v.take r ++ keepAux (v.drop (r + 1)) rest (r + 1) := by
      unfold remove_index
      have e1 : v.length - (r :: rest).length = v.length - 0 - (rest.length + 1) := by
        simp only [List.length_cons]; omega
      rw [e1, remove_index_aux_spec rest r v 0 hs hb (Nat.zero_le r), Nat.sub_zero]
    have hall : ∀ x ∈ r :: rest, 0 + r ≤ x := by
      intro x hx
      have hpw : ∀ y ∈ rest, r < y :=
        (List.pairwise_cons.mp (List.chain'_iff_pairwise.mp hs)).1
      rcases List.mem_cons.mp hx with hx | hx
      · omega
      · have := hpw x hx; omega
    have h2 : keep v (r :: rest)
        = v.take r ++ keepAux (v.drop r) (r :: rest) r := by
      unfold keep
      have := keepAux_skip r v (r :: rest) 0 hall
      rw [Nat.zero_add] at this
      exact this
    have hdropr : v.drop r = v[r] :: v.drop (r + 1) := List.drop_eq_getElem_cons hr
    have h3 : keepAux (v.drop r) (r :: rest) r
        = keepAux (v.drop (r + 1)) rest (r + 1) := by
      rw [hdropr, keepAux, if_pos (by simp)]
      exact keepAux_congr _ _ _ _ (fun j hj _ => by
        rw [List.mem_cons]
        exact or_iff_right (by omega : ¬ j = r))
    rw [h1, h2, h3]

/-- Claim C2: for every table `v` and every sorted, disjoint deletion set `D`
with all indices below `v.length`, `remove_index` removes exactly the rows at
the indices in `D` preserving order (it equals the index-filtering function
`keep`), the resulting length is `v.length - D.length`, and every surviving
row `q` moves down by the number of deletions preceding it. -/
theorem remove_index_spec (v : List α) (D : List ℕ)
    (hs : List.Chain' (· < ·) D) (hb : ∀ x ∈ D, x < v.length) :
    remove_index v D = keep v D ∧
    (remove_index v D).length = v.length - D.length ∧
    ∀ q, q < v.length → q ∉ D →
      (remove_index v D)[q - (D.filter (fun x => x < q)).length]? = v[q]? := by
  have hnd : D.Nodup := List.Pairwise.imp ne_of_lt (List.chain'_iff_pairwise.mp hs)
  have h1 := remove_index_eq_keep v D hs hb
  refine ⟨h1, ?_, ?_⟩
  · rw [h1]
    unfold keep
    exact keepAux_length v D 0 hnd
      (fun x hx => ⟨Nat.zero_le x, by have := hb x hx; omega⟩)
  · intro q hq hqD
    rw [h1]
    exact keep_getElem v D hnd q hq hqD

/-- Witness for claim C2, at the spec's own concrete instance: a table of
width 5 with deletions at indices 1 and 3 compacts to the rows that were at
indices 0, 2, 4, in order, at new indices 0, 1, 2. -/
theorem remove_index_spec_witness :
    remove_index ([10, 20, 30, 40, 50] : List ℕ) [1, 3] = keep [10, 20, 30, 40, 50] [1, 3] ∧
    remove_index ([10, 20, 30, 40, 50] : List ℕ) [1, 3] = [10, 30, 50] ∧
    (remove_index ([10, 20, 30, 40, 50] : List ℕ) [1, 3]).length = 5 - 2 ∧
    (remove_index ([10, 20, 30, 40, 50] : List ℕ) [1, 3])[4 - (([1, 3] : List ℕ).filter (fun x => x < 4)).length]?
      = ([10, 20, 30, 40, 50] : List ℕ)[4]? := by
  refine ⟨(remove_index_spec [10, 20, 30, 40, 50] [1, 3] (by simp) (by decide)).1,
    by decide, (remove_index_spec [10, 20, 30, 40, 50] [1, 3] (by simp) (by decide)).2.1, ?_⟩
  exact (remove_index_spec [10, 20, 30, 40, 50] [1, 3] (by simp) (by decide)).2.2
    4 (by decide) (by decide)

/-! ## Lemmas about the fusion update -/

theorem normMaxAux_fst (d : ℚ) (ps : List ℚ) :
    ∀ (c : ℕ) (mp : ℚ) (mc : ℤ), (normMaxAux d ps c mp mc).1 = ps.map (· / d) := by
  induction ps with
  | nil => intro c mp mc; rfl
  | cons p t ih =>
    intro c mp mc
    by_cases hq : mp ≤ p / d
    · simp only [normMaxAux, if_pos hq, List.map_cons, List.cons.injEq, true_and]
      exact ih _ _ _
    · simp only [normMaxAux, if_neg hq, List.map_cons, List.cons.injEq, true_and]
      exact ih _ _ _

theorem normMaxAux_snd_noupdate (d : ℚ) (ps : List ℚ) :
    ∀ (c : ℕ) (mp : ℚ) (mc : ℤ), (∀ q ∈ ps.map (· / d), q < mp) →
    (normMaxAux d ps c mp mc).2 = (mp, mc) := by
  induction ps with
  | nil => intro c mp mc _; rfl
  | cons p t ih =>
    intro c mp mc h
    have hq : p / d < mp := h (p / d) (by simp)
    simp only [normMaxAux, if_neg (not_le.mpr hq)]
    exact ih (c + 1) mp mc (fun q hq' => h q (by simp at hq' ⊢; right; exact hq'))

theorem normMaxAux_snd_argmax (d : ℚ) (ps : List ℚ) :
    ∀ (c : ℕ) (mp : ℚ) (mc : ℤ), (∃ q ∈ ps.map (· / d), mp ≤ q) →
    ∃ j, j < ps.length ∧
      (normMaxAux d ps c mp mc).2.2 = ((c + j : ℕ) : ℤ) ∧
      (ps.map (· / d))[j]? = some (normMaxAux d ps c mp mc).2.1 ∧
      ∀ k q, j < k → (ps.map (· / d))[k]? = some q →
        q < (normMaxAux d ps c mp mc).2.1 := by
  induction ps with
  | nil => intro c mp mc h; simp at h
  | cons p t ih =>
    intro c mp mc h
    by_cases hq : mp ≤ p / d
    · by_cases hrest : ∃ q ∈ t.map (· / d), p / d ≤ q
      · obtain ⟨j', hj', heq, hget, hlater⟩ := ih (c + 1) (p / d) (c : ℤ) hrest
        refine ⟨j' + 1, by simp only [List.length_cons]; omega, ?_, ?_, ?_⟩
        · simp only [normMaxAux, if_pos hq]
          rw [heq]
          congr 1
          omega
        · simp only [normMaxAux, if_pos hq, List.map_cons, List.getElem?_cons_succ]
          exact hget
        · intro k q hk hkget
          cases k with
          | zero => omega
          | succ k' =>
            simp only [List.map_cons, List.getElem?_cons_succ] at hkget
            simp only [normMaxAux, if_pos hq]
            exact hlater k' q (by omega) hkget
      · push_neg at hrest
        have hres : (normMaxAux d t (c + 1) (p / d) (c : ℤ)).2 = (p / d, (c : ℤ)) :=
          normMaxAux_snd_noupdate d t (c + 1) (p / d) (c : ℤ)
            (fun q hq' => lt_of_not_le (fun hc => absurd hc (not_le.mpr (hrest q hq'))))
        refine ⟨0, by simp, ?_, ?_, ?_⟩
        · simp only [normMaxAux, if_pos hq, hres]
          norm_num
        · simp only [normMaxAux, if_pos hq, hres, List.map_cons, List.getElem?_cons_zero]
        · intro k q hk hkget
          cases k with
          | zero => omega
          | succ k' =>
            simp only [List.map_cons, List.getElem?_cons_succ] at hkget
            simp only [normMaxAux, if_pos hq, hres]
            have hmem : q ∈ t.map (· / d) := List.getElem?_mem hkget
            exact hrest q hmem
    · have hrest : ∃ q ∈ t.map (· / d), mp ≤ q := by
        obtain ⟨q, hqmem, hqle⟩ := h
        simp only [List.map_cons, List.mem_cons] at hqmem
        rcases hqmem with rfl | hqmem
        · exact absurd hqle hq
        · exact ⟨q, hqmem, hqle⟩
      obtain ⟨j', hj', heq, hget, hlater⟩ := ih (c + 1) mp mc hrest
      refine ⟨j' + 1, by simp only [List.length_cons]; omega, ?_, ?_, ?_⟩
      · simp only [normMaxAux, if_neg hq]
        rw [heq]
        congr 1
        omega
      · simp only [normMaxAux, if_neg hq, List.map_cons, List.getElem?_cons_succ]
        exact hget
      · intro k q hk hkget
        cases k with
        | zero => omega
        | succ k' =>
          simp only [List.map_cons, List.getElem?_cons_succ] at hkget
          simp only [normMaxAux, if_neg hq]
          exact hlater k' q (by omega) hkget

theorem map_div_sum (l : List ℚ) (d : ℚ) : (l.map (· / d)).sum = l.sum / d := by
  induction l with
  | nil => simp
  | cons p t ih => simp [ih, add_div]

theorem le_foldl_max (l : List ℚ) : ∀ a : ℚ, a ≤ l.foldl max a := by
  induction l with
  | nil => intro a; exact le_rfl
  | cons q t ih =>
    intro a
    rw [List.foldl_cons]
    exact le_trans (le_max_left a q) (ih (max a q))

theorem mem_le_foldl_max (l : List ℚ) : ∀ (a x : ℚ), x ∈ l → x ≤ l.foldl max a := by
  induction l with
  | nil => intro a x h; simp at h
  | cons q t ih =>
    intro a x h
    rw [List.foldl_cons]
    rcases List.mem_cons.mp h with rfl | h
    · exact le_trans (le_max_right a x) (le_foldl_max t (max a x))
    · exact ih (max a q) x h

theorem normMaxAux_snd_fst (d : ℚ) (ps : List ℚ) :
    ∀ (c : ℕ) (mp : ℚ) (mc : ℤ),
    (normMaxAux d ps c mp mc).2.1 = (ps.map (· / d)).foldl max mp := by
  induction ps with
  | nil => intro c mp mc; rfl
  | cons p t ih =>
    intro c mp mc
    by_cases hq : mp ≤ p / d
    · simp only [normMaxAux, if_pos hq, List.map_cons, List.foldl_cons]
      rw [ih, max_eq_right hq]
    · simp only [normMaxAux, if_neg hq, List.map_cons, List.foldl_cons]
      rw [ih, max_eq_left (le_of_not_le hq)]

/-! ## Lemmas about the CRF write-back loops -/

theorem cellPos_injective (maxc i : ℕ) (hi : 0 < maxc) {j j' : ℕ}
    (h : j * maxc + i = j' * maxc + i) : j = j' :=
  Nat.eq_of_mul_eq_mul_right hi (by omega)

theorem crfCellFold_untouched (maxc numc : ℕ) (res : ℕ → CrfVal) (i : ℕ)
    (js : List ℕ) : ∀ (t : ℕ → ℚ) (p : ℕ), (∀ j ∈ js, j * maxc + i ≠ p) →
    (js.foldl (fun t' j => crfWriteCell maxc numc res t' i j) t) p = t p := by
  induction js with
  | nil => intro t p _; rfl
  | cons j js ih =>
    intro t p h
    rw [List.foldl_cons, ih _ p (fun j' hj' => h j' (List.mem_cons_of_mem _ hj'))]
    unfold crfWriteCell
    by_cases hc : strictlyInside01 (res (i * numc + j)) = true
    · rw [if_pos hc, Function.update_noteq (h j (List.mem_cons_self _ _)).symm]
    · rw [if_neg hc]

theorem crfWriteCell_same (maxc numc : ℕ) (res : ℕ → CrfVal) (t : ℕ → ℚ) (i j : ℕ) :
    crfWriteCell maxc numc res t i j (j * maxc + i)
      = if strictlyInside01 (res (i * numc + j)) then crfValue (res (i * numc + j))
        else t (j * maxc + i) := by
  unfold crfWriteCell
  by_cases hc : strictlyInside01 (res (i * numc + j)) = true
  · rw [if_pos hc, if_pos hc, Function.update_same]
  · rw [if_neg hc, if_neg hc]

theorem crfWriteCell_noteq (maxc numc : ℕ) (res : ℕ → CrfVal) (t : ℕ → ℚ)
    (i j p : ℕ) (hne : p ≠ j * maxc + i) :
    crfWriteCell maxc numc res t i j p = t p := by
  unfold crfWriteCell
  by_cases hc : strictlyInside01 (res (i * numc + j)) = true
  · rw [if_pos hc, Function.update_noteq hne]
  · rw [if_neg hc]

theorem crfCellFold_apply (maxc numc : ℕ) (res : ℕ → CrfVal) (i : ℕ) (hi : i < maxc) :
    ∀ (m : ℕ) (t : ℕ → ℚ) (j : ℕ), j < m →
    ((List.range m).foldl (fun t' j' => crfWriteCell maxc numc res t' i j') t) (j * maxc + i)
      = if strictlyInside01 (res (i * numc + j)) then crfValue (res (i * numc + j))
        else t (j * maxc + i) := by
  intro m
  induction m with
  | zero => intro t j h; omega
  | succ m ih =>
    intro t j hj
    rw [List.range_succ, List.foldl_append, List.foldl_cons, List.foldl_nil]
    by_cases hjm : j = m
    · subst hjm
      have hprev : ((List.range j).foldl (fun t' j' => crfWriteCell maxc numc res t' i j') t)
          (j * maxc + i) = t (j * maxc + i) :=
        crfCellFold_untouched maxc numc res i (List.range j) t _
          (fun j' hj' hcontra => by
            have h1 : j' < j := List.mem_range.mp hj'
            have h2 : j' = j := cellPos_injective maxc i (by omega) hcontra
            omega)
      rw [crfWriteCell_same, hprev]
    · have hne : j * maxc + i ≠ m * maxc + i :=
        fun hcontra => hjm (cellPos_injective maxc i (by omega) hcontra)
      rw [crfWriteCell_noteq maxc numc res _ i m _ hne, ih t j (by omega)]

theorem mul_add_mod_eq (j maxc i : ℕ) (hi : i < maxc) : (j * maxc + i) % maxc = i := by
  rw [Nat.add_comm, Nat.add_mul_mod_self_right, Nat.mod_eq_of_lt hi]

theorem crfWriteRow_untouched (maxc numc : ℕ) (res : ℕ → CrfVal) (i : ℕ)
    (hi : i < maxc) (t : ℕ → ℚ) (p : ℕ) (hp : p % maxc ≠ i) :
    crfWriteRow maxc numc res t i p = t p :=
  crfCellFold_untouched maxc numc res i (List.range numc) t p
    (fun j _ hc => hp (by rw [← hc, mul_add_mod_eq j maxc i hi]))

theorem crfWriteRow_apply (maxc numc : ℕ) (res : ℕ → CrfVal) (i : ℕ)
    (hi : i < maxc) (t : ℕ → ℚ) (j : ℕ) (hj : j < numc) :
    crfWriteRow maxc numc res t i (j * maxc + i)
      = if strictlyInside01 (res (i * numc + j)) then crfValue (res (i * numc + j))
        else t (j * maxc + i) :=
  crfCellFold_apply maxc numc res i hi numc t j hj

theorem crfRowFold_untouched (maxc numc : ℕ) (res : ℕ → CrfVal) (is : List ℕ) :
    ∀ (t : ℕ → ℚ) (p : ℕ), (∀ i' ∈ is, i' < maxc ∧ p % maxc ≠ i') →
    (is.foldl (fun t' i' => crfWriteRow maxc numc res t' i') t) p = t p := by
  induction is with
  | nil => intro t p _; rfl
  | cons i' is ih =>
    intro t p h
    rw [List.foldl_cons, ih _ p (fun x hx => h x (List.mem_cons_of_mem _ hx))]
    exact crfWriteRow_untouched maxc numc res i' (h i' (List.mem_cons_self _ _)).1 t p
      (h i' (List.mem_cons_self _ _)).2

theorem crfWriteBack_apply (maxc numc : ℕ) (res : ℕ → CrfVal) :
    ∀ (n : ℕ) (t : ℕ → ℚ) (i j : ℕ), i < n → n ≤ maxc → j < numc →
    crfWriteBack maxc numc n res t (j * maxc + i)
      = if strictlyInside01 (res (i * numc + j)) then crfValue (res (i * numc + j))
        else t (j * maxc + i) := by
  intro n
  induction n with
  | zero => intro t i j hin _ _; omega
  | succ m ih =>
    intro t i j hin hnm hj
    unfold crfWriteBack
    rw [List.range_succ, List.foldl_append, List.foldl_cons, List.foldl_nil]
    by_cases him : i = m
    · subst him
      have hprev : ((List.range i).foldl (fun t' i' => crfWriteRow maxc numc res t' i') t)
          (j * maxc + i) = t (j * maxc + i) :=
        crfRowFold_untouched maxc numc res (List.range i) t _
          (fun i' hi' => by
            have : i' < i := List.mem_range.mp hi'
            exact ⟨by omega, by rw [mul_add_mod_eq j maxc i (by omega)]; omega⟩)
      rw [crfWriteRow_apply maxc numc res i (by omega) _ j hj, hprev]
    · rw [crfWriteRow_untouched maxc numc res m (by omega) _ _
        (by rw [mul_add_mod_eq j maxc i (by omega)]; omega)]
      have hrec := ih t i j (by omega) (by omega) hj
      unfold crfWriteBack at hrec
      exact hrec

/-! ## Claim theorems: fusion and smoothing -/

/-- Counterexample to claim C1: the fusion half of the claim is not true of
every probability row.  For the valid probability row `[1, 0]` (non-negative,
summing to 1) and the valid observation `[0, 1]`, all mass collapses, the
unguarded division by the zero denominator executes, and the updated row
sums to 0, not 1. -/
theorem fusion_row_sum_collapse_counterexample :
    ([1, 0] : List ℚ).sum = 1 ∧ (∀ x ∈ ([1, 0] : List ℚ), 0 ≤ x) ∧
    ([0, 1] : List ℚ).sum = 1 ∧ (∀ x ∈ ([0, 1] : List ℚ), 0 ≤ x) ∧
    ((updateSurfelProbabilities [1, 0] [0, 1] (1/2)).1).sum = 0 ∧
    ((0 : ℚ) ≠ 1) := by
  refine ⟨by norm_num, ?_, by norm_num, ?_, ?_, by norm_num⟩
  · intro x hx
    rcases List.mem_cons.mp hx with rfl | hx
    · norm_num
    · simp at hx; rw [hx]
  · intro x hx
    rcases List.mem_cons.mp hx with rfl | hx
    · norm_num
    · simp at hx; rw [hx]; norm_num
  · show ((surfelFusion [1, 0] [0, 1]).1).sum = 0
    norm_num [surfelFusion, normDenominator, normMaxAux]

/-- Claim C1 amended: after a fusion update whose accumulated denominator is
nonzero (the row's mass did not collapse to zero) the normalised row sums to
1, and after a smoothing write-back in which every class value of a row
passed the filter (none discarded), the row equals the inference result row
and hence sums to 1 (the inference output being a probability distribution
is the spec's contract for the external solver). -/
theorem probability_row_sum_one :
    (∀ (row obs : List ℚ) (thr : ℚ), normDenominator row obs ≠ 0 →
      ((updateSurfelProbabilities row obs thr).1).sum = 1) ∧
    (∀ (maxc numc n : ℕ) (res : ℕ → CrfVal) (t : ℕ → ℚ) (i : ℕ),
      i < n → n ≤ maxc →
      (∀ j, j < numc → strictlyInside01 (res (i * numc + j)) = true) →
      ((List.range numc).map (fun j => crfValue (res (i * numc + j)))).sum = 1 →
      ((List.range numc).map (fun j => crfWriteBack maxc numc n res t (j * maxc + i))).sum = 1) := by
  constructor
  · intro row obs thr hd
    show ((surfelFusion row obs).1).sum = 1
    unfold surfelFusion
    rw [normMaxAux_fst, map_div_sum]
    exact div_self hd
  · intro maxc numc n res t i hin hnm hall hsum
    have hcong : ∀ j ∈ List.range numc,
        crfWriteBack maxc numc n res t (j * maxc + i) = crfValue (res (i * numc + j)) := by
      intro j hj
      rw [crfWriteBack_apply maxc numc res n t i j hin hnm (List.mem_range.mp hj),
        if_pos (hall j (List.mem_range.mp hj))]
    rw [List.map_congr_left hcong]
    exact hsum

/-- Witness for claim C1: a concrete fusion update and a concrete
full-acceptance smoothing write-back, both summing to 1. -/
theorem probability_row_sum_one_witness :
    ((updateSurfelProbabilities [1/2, 1/2] [3/4, 1/4] 0).1).sum = 1 ∧
    ((List.range 2).map (fun j => crfWriteBack 2 2 1
        (fun k => if k = 0 then CrfVal.val (1/3) else CrfVal.val (2/3))
        (fun _ => 1/2) (j * 2 + 0))).sum = 1 := by
  constructor
  · exact probability_row_sum_one.1 [1/2, 1/2] [3/4, 1/4] 0 (by norm_num [normDenominator])
  · exact probability_row_sum_one.2 2 2 1
      (fun k => if k = 0 then CrfVal.val (1/3) else CrfVal.val (2/3))
      (fun _ => 1/2) 0 (by omega) (by omega)
      (by intro j hj; interval_cases j <;> norm_num [strictlyInside01])
      (by simp [List.range_succ, crfValue]; norm_num)

/-- Claim C4: a table cell touched by the smoothing pass is overwritten by
the smoothing result exactly when that result is strictly greater than 0
and strictly less than 1; results equal to 0, equal to 1, out of range, or
NaN leave the cell at its pre-smoothing value. -/
theorem crf_writeback_filter (maxc numc n : ℕ) (res : ℕ → CrfVal) (t : ℕ → ℚ)
    (i j : ℕ) (hin : i < n) (hnm : n ≤ maxc) (hj : j < numc) :
    (∀ q : ℚ, res (i * numc + j) = CrfVal.val q → 0 < q → q < 1 →
      crfWriteBack maxc numc n res t (j * maxc + i) = q) ∧
    (∀ q : ℚ, res (i * numc + j) = CrfVal.val q → (q ≤ 0 ∨ 1 ≤ q) →
      crfWriteBack maxc numc n res t (j * maxc + i) = t (j * maxc + i)) ∧
    (res (i * numc + j) = CrfVal.nan →
      crfWriteBack maxc numc n res t (j * maxc + i) = t (j * maxc + i)) := by
  refine ⟨?_, ?_, ?_⟩
  · intro q hq h0 h1
    rw [crfWriteBack_apply maxc numc res n t i j hin hnm hj, hq]
    have hyes : strictlyInside01 (CrfVal.val q) = true := by
      simp only [strictlyInside01, Bool.and_eq_true, decide_eq_true_eq]
      exact ⟨h0, h1⟩
    rw [if_pos hyes]
    rfl
  · intro q hq hout
    rw [crfWriteBack_apply maxc numc res n t i j hin hnm hj, hq]
    have hnot : ¬ (strictlyInside01 (CrfVal.val q) = true) := by
      simp only [strictlyInside01, Bool.and_eq_true, decide_eq_true_eq, not_and]
      intro hc0 hc1
      rcases hout with h | h
      · exact absurd hc0 (not_lt.mpr h)
      · exact absurd hc1 (not_lt.mpr h)
    rw [if_neg hnot]
  · intro hq
    rw [crfWriteBack_apply maxc numc res n t i j hin hnm hj, hq]
    have hnot : ¬ (strictlyInside01 CrfVal.nan = true) := by
      simp [strictlyInside01]
    rw [if_neg hnot]

/-- Witness for claim C4: with two rows and two classes, an in-range result
is written, while a NaN result and a result of 1.0 leave the cells at their
previous value 1/2. -/
theorem crf_writeback_filter_witness :
    crfWriteBack 2 2 2 (fun k => if k = 0 then CrfVal.val (1/3)
        else if k = 1 then CrfVal.nan else CrfVal.val 1)
      (fun _ => 1/2) (0 * 2 + 0) = 1/3 ∧
    crfWriteBack 2 2 2 (fun k => if k = 0 then CrfVal.val (1/3)
        else if k = 1 then CrfVal.nan else CrfVal.val 1)
      (fun _ => 1/2) (1 * 2 + 0) = 1/2 ∧
    crfWriteBack 2 2 2 (fun k => if k = 0 then CrfVal.val (1/3)
        else if k = 1 then CrfVal.nan else CrfVal.val 1)
      (fun _ => 1/2) (0 * 2 + 1) = 1/2 := by
  refine ⟨?_, ?_, ?_⟩
  · exact (crf_writeback_filter 2 2 2 _ _ 0 0 (by omega) (by omega) (by omega)).1
      (1/3) rfl (by norm_num) (by norm_num)
  · exact (crf_writeback_filter 2 2 2 _ _ 0 1 (by omega) (by omega) (by omega)).2.2 rfl
  · exact (crf_writeback_filter 2 2 2 _ _ 1 0 (by omega) (by omega) (by omega)).2.1
      1 rfl (Or.inr le_rfl)

/-- Counterexample to claim C5: for the valid probability row `[1, 0]` and
observation `[0, 1]`, all mass collapses and the normalisation denominator
computed by `UpdateSurfelProbabilities` is exactly 0 — no epsilon floor
guards the division (in the rational model the unguarded division then
yields an all-zero row instead of a distribution). -/
theorem fusion_no_epsilon_floor_counterexample :
    ([1, 0] : List ℚ).sum = 1 ∧
    normDenominator [1, 0] [0, 1] = 0 ∧
    ((updateSurfelProbabilities [1, 0] [0, 1] (1/2)).1).sum = 0 := by
  refine ⟨by norm_num, by norm_num [normDenominator], ?_⟩
  show ((surfelFusion [1, 0] [0, 1]).1).sum = 0
  norm_num [surfelFusion, normDenominator, normMaxAux]

/-- Claim C5 amended: the renormalisation of `UpdateSurfelProbabilities`
divides every product by exactly the raw accumulated sum of products, with
no epsilon floor added, and there are valid probability inputs on which
that divisor is zero, so the division is not guarded against zero. -/
theorem fusion_renormalisation_unguarded :
    (∀ row obs : List ℚ,
      (surfelFusion row obs).1
        = (List.zipWith (· * ·) row obs).map (· / normDenominator row obs)) ∧
    (∃ row obs : List ℚ, row.sum = 1 ∧ (∀ x ∈ row, 0 ≤ x) ∧
      obs.sum = 1 ∧ (∀ x ∈ obs, 0 ≤ x) ∧ normDenominator row obs = 0) := by
  constructor
  · intro row obs
    exact normMaxAux_fst _ _ _ _ _
  · refine ⟨[1, 0], [0, 1], by norm_num, ?_, by norm_num, ?_, by norm_num [normDenominator]⟩
    · intro x hx
      rcases List.mem_cons.mp hx with rfl | hx
      · norm_num
      · simp at hx; rw [hx]
    · intro x hx
      rcases List.mem_cons.mp hx with rfl | hx
      · norm_num
      · simp at hx; rw [hx]; norm_num

/-- Counterexample to claim C6: in a row where classes 0 and 1 tie at the
maximum after normalisation, the computed best class is 1, the highest tied
index, not the smallest such index 0. -/
theorem fusion_argmax_tie_counterexample :
    (surfelFusion [1/2, 1/2] [1, 1]).1 = [1/2, 1/2] ∧
    (surfelFusion [1/2, 1/2] [1, 1]).2.1 = 1/2 ∧
    (surfelFusion [1/2, 1/2] [1, 1]).2.2 = 1 ∧
    ((1 : ℤ) ≠ 0) := by
  refine ⟨?_, ?_, ?_, by omega⟩
  · norm_num [surfelFusion, normDenominator, normMaxAux]
  · norm_num [surfelFusion, normDenominator, normMaxAux]
  · norm_num [surfelFusion, normDenominator, normMaxAux]

/-- Claim C6 amended: because the running-maximum comparison is
greater-or-equal in ascending class order, ties are broken by the HIGHEST
class index: the computed best class is an index attaining the row maximum
such that every later class is strictly below the maximum. -/
theorem fusion_argmax_last_tie_wins (row obs : List ℚ)
    (hne : (surfelFusion row obs).1 ≠ [])
    (hnn : ∀ q ∈ (surfelFusion row obs).1, 0 ≤ q) :
    ∃ j, j < (surfelFusion row obs).1.length ∧
      (surfelFusion row obs).2.2 = (j : ℤ) ∧
      ((surfelFusion row obs).1)[j]? = some (surfelFusion row obs).2.1 ∧
      (∀ k q, j < k → ((surfelFusion row obs).1)[k]? = some q →
        q < (surfelFusion row obs).2.1) ∧
      (∀ q ∈ (surfelFusion row obs).1, q ≤ (surfelFusion row obs).2.1) := by
  have hfst : (surfelFusion row obs).1
      = (List.zipWith (· * ·) row obs).map (· / normDenominator row obs) :=
    normMaxAux_fst _ _ _ _ _
  have hex : ∃ q ∈ (List.zipWith (· * ·) row obs).map (· / normDenominator row obs),
      (0 : ℚ) ≤ q := by
    rw [hfst] at hne hnn
    cases hmap : (List.zipWith (· * ·) row obs).map (· / normDenominator row obs) with
    | nil => exact absurd hmap hne
    | cons q t =>
      refine ⟨q, List.mem_cons_self _ _, ?_⟩
      exact hnn q (by rw [hmap]; exact List.mem_cons_self _ _)
  obtain ⟨j, hj, heq, hget, hlater⟩ :=
    normMaxAux_snd_argmax (normDenominator row obs) (List.zipWith (· * ·) row obs)
      0 0 (-1) hex
  refine ⟨j, ?_, ?_, ?_, ?_, ?_⟩
  · rw [hfst, List.length_map]
    exact hj
  · exact heq.trans (by norm_num)
  · rw [hfst]
    exact hget
  · intro k q hk hkget
    rw [hfst] at hkget
    exact hlater k q hk hkget
  · intro q hq
    rw [hfst] at hq
    have hsnd : (surfelFusion row obs).2.1
        = ((List.zipWith (· * ·) row obs).map (· / normDenominator row obs)).foldl max 0 :=
      normMaxAux_snd_fst _ _ _ _ _
    rw [hsnd]
    exact mem_le_foldl_max _ 0 q hq

/-- Witness for the amended claim C6: on the normalised row
`[1/5, 2/5, 2/5]` (classes 1 and 2 tie at the maximum) the chosen class is
an index attaining the maximum with every later class strictly below it:
index 2. -/
theorem fusion_argmax_last_tie_wins_witness :
    ∃ j, j < (surfelFusion [1/4, 1/2, 1/2] [1, 1, 1]).1.length ∧
      (surfelFusion [1/4, 1/2, 1/2] [1, 1, 1]).2.2 = (j : ℤ) ∧
      ((surfelFusion [1/4, 1/2, 1/2] [1, 1, 1]).1)[j]?
        = some (surfelFusion [1/4, 1/2, 1/2] [1, 1, 1]).2.1 ∧
      (∀ k q, j < k → ((surfelFusion [1/4, 1/2, 1/2] [1, 1, 1]).1)[k]? = some q →
        q < (surfelFusion [1/4, 1/2, 1/2] [1, 1, 1]).2.1) ∧
      (∀ q ∈ (surfelFusion [1/4, 1/2, 1/2] [1, 1, 1]).1,
        q ≤ (surfelFusion [1/4, 1/2, 1/2] [1, 1, 1]).2.1) :=
  fusion_argmax_last_tie_wins [1/4, 1/2, 1/2] [1, 1, 1]
    (by norm_num [surfelFusion, normDenominator, normMaxAux]
        exact List.cons_ne_nil _ _)
    (by norm_num [surfelFusion, normDenominator, normMaxAux])

/-- Claim C7: the confidence threshold is inclusive — when the maximum
probability reaches `colour_threshold_` the returned value is the computed
argmax class, when it is strictly below the returned value is the sentinel
`-1`, and `-1` is distinct from every valid (natural) class index. -/
theorem colour_threshold_inclusive (row obs : List ℚ) (thr : ℚ) :
    (thr ≤ (surfelFusion row obs).2.1 →
      (updateSurfelProbabilities row obs thr).2 = (surfelFusion row obs).2.2) ∧
    ((surfelFusion row obs).2.1 < thr →
      (updateSurfelProbabilities row obs thr).2 = -1) ∧
    (∀ k : ℕ, ((-1 : ℤ) ≠ (k : ℤ))) := by
  refine ⟨fun h => ?_, fun h => ?_, fun k => by omega⟩
  · unfold updateSurfelProbabilities
    rw [if_pos h]
  · unfold updateSurfelProbabilities
    rw [if_neg (not_le.mpr h)]

/-- Witness for claim C7: with the maximum probability exactly at the
threshold 1/2 the result is the argmax class 1 (inclusive boundary), with
the threshold raised above it the result is the sentinel `-1`, and `-1`
differs from the class index 5. -/
theorem colour_threshold_inclusive_witness :
    (updateSurfelProbabilities [1/2, 1/2] [1, 1] (1/2)).2 = 1 ∧
    (updateSurfelProbabilities [1/2, 1/2] [1, 1] (3/4)).2 = -1 ∧
    ((-1 : ℤ) ≠ ((5 : ℕ) : ℤ)) := by
  refine ⟨?_, ?_, (colour_threshold_inclusive [1/2, 1/2] [1, 1] (1/2)).2.2 5⟩
  · rw [(colour_threshold_inclusive [1/2, 1/2] [1, 1] (1/2)).1
      (by norm_num [surfelFusion, normDenominator, normMaxAux])]
    norm_num [surfelFusion, normDenominator, normMaxAux]
  · exact (colour_threshold_inclusive [1/2, 1/2] [1, 1] (3/4)).2.1
      (by norm_num [surfelFusion, normDenominator, normMaxAux])

/-! ## Claim theorems: table synchronizer and summary layout -/

theorem keep_nil_eq (v : List α) : keep v [] = v := keepAux_nil v 0

/-- Claim C3: invoking the table synchronizer with an empty deletion set and
an unchanged logical width changes nothing beyond the buffer swap — the
logical width is unchanged, every live row's probability content and every
live cached summary entry read from the new active buffers are identical to
the old ones, and the old active buffers become the inactive ones. -/
theorem update_probability_table_noop (s : SemanticFusionState) (numc : ℕ)
    (hT : s.tableSize ≤ s.activeTable.length)
    (hS : s.tableSize ≤ s.activeSummary.length) :
    (UpdateProbabilityTable s [] s.tableSize numc).tableSize = s.tableSize ∧
    (∀ id, id < s.tableSize →
      (UpdateProbabilityTable s [] s.tableSize numc).activeTable[id]?
        = s.activeTable[id]?) ∧
    (∀ id, id < s.tableSize →
      (UpdateProbabilityTable s [] s.tableSize numc).activeSummary[id]?
        = s.activeSummary[id]?) ∧
    (UpdateProbabilityTable s [] s.tableSize numc).bufferTable = s.activeTable ∧
    (UpdateProbabilityTable s [] s.tableSize numc).bufferSummary = s.activeSummary := by
  refine ⟨rfl, ?_, ?_, rfl, rfl⟩
  · intro id hid
    show (updateProbabilityTableModel s.activeTable [] s.tableSize numc)[id]?
      = s.activeTable[id]?
    unfold updateProbabilityTableModel
    rw [keep_nil_eq, List.getElem?_map, List.getElem?_range hid]
    have hlt : id < s.activeTable.length := by omega
    rw [Option.map_some', List.getD_eq_getElem _ _ hlt, List.getElem?_eq_getElem hlt]
  · intro id hid
    show (updateSummaryModel s.activeSummary [] s.tableSize numc)[id]?
      = s.activeSummary[id]?
    unfold updateSummaryModel
    rw [keep_nil_eq, List.getElem?_map, List.getElem?_range hid]
    have hlt : id < s.activeSummary.length := by omega
    rw [Option.map_some', List.getD_eq_getElem _ _ hlt, List.getElem?_eq_getElem hlt]

/-- Witness for claim C3: a concrete two-row state is unchanged by a
synchronizer call with no deletions and the same width. -/
theorem update_probability_table_noop_witness :
    (UpdateProbabilityTable
        { activeTable := [[1, 0], [1/2, 1/2]], bufferTable := [],
          activeSummary := [(-1, 1/2), (0, 1/2)], bufferSummary := [],
          tableSize := 2 } [] 2 2).tableSize = 2 ∧
    (UpdateProbabilityTable
        { activeTable := [[1, 0], [1/2, 1/2]], bufferTable := [],
          activeSummary := [(-1, 1/2), (0, 1/2)], bufferSummary := [],
          tableSize := 2 } [] 2 2).activeTable[1]? = some [1/2, 1/2] ∧
    (UpdateProbabilityTable
        { activeTable := [[1, 0], [1/2, 1/2]], bufferTable := [],
          activeSummary := [(-1, 1/2), (0, 1/2)], bufferSummary := [],
          tableSize := 2 } [] 2 2).activeSummary[1]? = some (0, 1/2) := by
  refine ⟨(update_probability_table_noop _ 2 (by norm_num) (by norm_num)).1, ?_, ?_⟩
  · rw [(update_probability_table_noop _ 2 (by norm_num) (by norm_num)).2.1 1 (by norm_num)]
    rfl
  · rw [(update_probability_table_noop _ 2 (by norm_num) (by norm_num)).2.2.1 1 (by norm_num)]
    rfl

/-- Claim C10: with the flat summary buffer holding the best class of row
`id` at offset `id` and its best probability at offset
`max_components_ + id`, a summary write for row `id` is read back exactly
by the readers' offsets, and rows other than `id` are unaffected — the
probability read for a row is always the one written for that row. -/
theorem summary_buffer_layout (maxc : ℕ) (buf : ℕ → ℚ) (id id' : ℕ)
    (cls p : ℚ) (hid : id < maxc) (hid' : id' < maxc) :
    summaryProbAt maxc (writeSummary maxc buf id cls p) id = p ∧
    summaryClassAt (writeSummary maxc buf id cls p) id = cls ∧
    (id' ≠ id →
      summaryProbAt maxc (writeSummary maxc buf id cls p) id'
        = summaryProbAt maxc buf id' ∧
      summaryClassAt (writeSummary maxc buf id cls p) id'
        = summaryClassAt buf id') := by
  unfold summaryProbAt summaryClassAt writeSummary
  refine ⟨?_, ?_, fun hne => ⟨?_, ?_⟩⟩
  · rw [Function.update_same]
  · rw [Function.update_noteq (by omega), Function.update_same]
  · rw [Function.update_noteq (by omega), Function.update_noteq (by omega)]
  · rw [Function.update_noteq (by omega), Function.update_noteq (by omega)]

/-- Witness for claim C10: in a buffer of capacity 4, writing class 3 with
probability 1/2 for row 1 is read back at the readers' offsets, and row 2
is untouched. -/
theorem summary_buffer_layout_witness :
    summaryProbAt 4 (writeSummary 4 (fun _ => 0) 1 3 (1/2)) 1 = 1/2 ∧
    summaryClassAt (writeSummary 4 (fun _ => 0) 1 3 (1/2)) 1 = 3 ∧
    summaryProbAt 4 (writeSummary 4 (fun _ => 0) 1 3 (1/2)) 2
      = summaryProbAt 4 (fun _ => 0) 2 := by
  refine ⟨(summary_buffer_layout 4 (fun _ => 0) 1 2 3 (1/2) (by omega) (by omega)).1,
    (summary_buffer_layout 4 (fun _ => 0) 1 2 3 (1/2) (by omega) (by omega)).2.1, ?_⟩
  exact ((summary_buffer_layout 4 (fun _ => 0) 1 2 3 (1/2) (by omega) (by omega)).2.2
    (by omega)).1

/-! ## Lemmas about the argmax-export patch scan -/

theorem bestFold_invalid (n : ℤ) (maxProb : ℤ → ℚ) (bestCls : ℤ → ℤ) (ids : List ℤ) :
    ∀ acc : ℚ × ℤ, (∀ id ∈ ids, ¬(0 < id ∧ id < n)) →
    ids.foldl (bestStep n maxProb bestCls) acc = acc := by
  induction ids with
  | nil => intro acc _; rfl
  | cons a ids ih =>
    intro acc h
    rw [List.foldl_cons]
    have hstep : bestStep n maxProb bestCls acc a = acc := by
      unfold bestStep
      rw [if_neg (h a (List.mem_cons_self _ _))]
    rw [hstep]
    exact ih acc (fun id hid => h id (List.mem_cons_of_mem _ hid))

theorem bestFold_keep (n : ℤ) (maxProb : ℤ → ℚ) (bestCls : ℤ → ℤ) (ids : List ℤ) :
    ∀ acc : ℚ × ℤ, (∀ id ∈ ids, 0 < id → id < n → maxProb id ≤ acc.1) →
    ids.foldl (bestStep n maxProb bestCls) acc = acc := by
  induction ids with
  | nil => intro acc _; rfl
  | cons a ids ih =>
    intro acc h
    rw [List.foldl_cons]
    have hstep : bestStep n maxProb bestCls acc a = acc := by
      unfold bestStep
      by_cases hval : 0 < a ∧ a < n
      · rw [if_pos hval,
          if_neg (not_lt.mpr (h a (List.mem_cons_self _ _) hval.1 hval.2))]
      · rw [if_neg hval]
    rw [hstep]
    exact ih acc (fun id hid => h id (List.mem_cons_of_mem _ hid))

theorem bestFold_unique_max (n : ℤ) (maxProb : ℤ → ℚ) (bestCls : ℤ → ℤ)
    (m : ℤ) (hm0 : 0 < m) (hmn : m < n) (ids : List ℤ) :
    ∀ acc : ℚ × ℤ, m ∈ ids →
    (∀ id ∈ ids, 0 < id → id < n → maxProb id ≤ maxProb m) →
    (∀ id ∈ ids, 0 < id → id < n → maxProb id = maxProb m → id = m) →
    acc.1 < maxProb m →
    ids.foldl (bestStep n maxProb bestCls) acc = (maxProb m, bestCls m) := by
  induction ids with
  | nil => intro acc h; simp at h
  | cons a ids ih =>
    intro acc hmem hle huniq hacc
    rw [List.foldl_cons]
    by_cases hval : 0 < a ∧ a < n
    · by_cases hgt : acc.1 < maxProb a
      · have hstep : bestStep n maxProb bestCls acc a = (maxProb a, bestCls a) := by
          unfold bestStep
          rw [if_pos hval, if_pos hgt]
        rw [hstep]
        by_cases ham : a = m
        · subst ham
          exact bestFold_keep n maxProb bestCls ids (maxProb a, bestCls a)
            (fun id hid h0 hn => hle id (List.mem_cons_of_mem _ hid) h0 hn)
        · have hlt : maxProb a < maxProb m :=
            lt_of_le_of_ne (hle a (List.mem_cons_self _ _) hval.1 hval.2)
              (fun he => ham (huniq a (List.mem_cons_self _ _) hval.1 hval.2 he))
          have hmem' : m ∈ ids := by
            rcases List.mem_cons.mp hmem with he | hm
            · exact absurd he.symm ham
            · exact hm
          exact ih (maxProb a, bestCls a) hmem'
            (fun id hid => hle id (List.mem_cons_of_mem _ hid))
            (fun id hid => huniq id (List.mem_cons_of_mem _ hid)) hlt
      · have hstep : bestStep n maxProb bestCls acc a = acc := by
          unfold bestStep
          rw [if_pos hval, if_neg hgt]
        rw [hstep]
        have ham : a ≠ m := fun he => hgt (by rw [he]; exact hacc)
        have hmem' : m ∈ ids := by
          rcases List.mem_cons.mp hmem with he | hm
          · exact absurd he.symm ham
          · exact hm
        exact ih acc hmem'
          (fun id hid => hle id (List.mem_cons_of_mem _ hid))
          (fun id hid => huniq id (List.mem_cons_of_mem _ hid)) hacc
    · have hstep : bestStep n maxProb bestCls acc a = acc := by
        unfold bestStep
        rw [if_neg hval]
      rw [hstep]
      have ham : a ≠ m := fun he => hval (by rw [he]; exact ⟨hm0, hmn⟩)
      have hmem' : m ∈ ids := by
        rcases List.mem_cons.mp hmem with he | hm
        · exact absurd he.symm ham
        · exact hm
      exact ih acc hmem'
        (fun id hid => hle id (List.mem_cons_of_mem _ hid))
        (fun id hid => huniq id (List.mem_cons_of_mem _ hid)) hacc

/-- Claim C8: for an output pixel of the 320x240 argmax export, if no pixel
of the 2x2 identity-raster patch holds an identifier with
`0 < id < current_table_size_` the emitted class is 0 on all three
channels; and if among the valid patch identifiers there is one, `m`, with
positive cached probability strictly dominating every other valid patch
identifier, the emitted value on all three channels is the cached best
class of `m` (classes being byte values, `0 ≤ bestCls m < 256`). -/
theorem save_argmax_patch (n : ℤ) (maxProb : ℤ → ℚ) (bestCls : ℤ → ℤ)
    (surfelIds : ℕ → ℤ) (h w : ℕ) :
    ((∀ id ∈ patchIds surfelIds h w, ¬(0 < id ∧ id < n)) →
      saveArgMaxChannels n maxProb bestCls surfelIds h w = (0, 0, 0)) ∧
    (∀ m : ℤ, m ∈ patchIds surfelIds h w → 0 < m → m < n →
      0 < maxProb m →
      (∀ id ∈ patchIds surfelIds h w, 0 < id → id < n → maxProb id ≤ maxProb m) →
      (∀ id ∈ patchIds surfelIds h w, 0 < id → id < n →
        maxProb id = maxProb m → id = m) →
      0 ≤ bestCls m → bestCls m < 256 →
      saveArgMaxChannels n maxProb bestCls surfelIds h w
        = ((bestCls m).toNat, (bestCls m).toNat, (bestCls m).toNat)) := by
  constructor
  · intro hnone
    unfold saveArgMaxChannels saveArgMaxPixel
    rw [bestFold_invalid n maxProb bestCls _ (0, 0) hnone]
    rfl
  · intro m hmem h0 hn hpos hle huniq hc0 hc256
    unfold saveArgMaxChannels saveArgMaxPixel
    rw [bestFold_unique_max n maxProb bestCls m h0 hn _ (0, 0) hmem hle huniq hpos]
    rw [Int.emod_eq_of_lt hc0 hc256]

/-- Witness for claim C8: a patch whose four pixels all map to surfel 3 of a
5-row table with cached class 7 and probability 1/2 emits (7, 7, 7); a
patch with no valid identifier emits (0, 0, 0). -/
theorem save_argmax_patch_witness :
    saveArgMaxChannels 5 (fun _ => 1/2) (fun _ => 7) (fun _ => 3) 0 0 = (7, 7, 7) ∧
    saveArgMaxChannels 5 (fun _ => 1/2) (fun _ => 7) (fun _ => 0) 0 0 = (0, 0, 0) := by
  constructor
  · have h3 : ∀ id ∈ patchIds (fun _ => (3 : ℤ)) 0 0, id = 3 := by
      intro id hid
      simp [patchIds, patchOffsets] at hid
      exact hid
    have := (save_argmax_patch 5 (fun _ => 1/2) (fun _ => 7) (fun _ => 3) 0 0).2 3
      (by simp [patchIds, patchOffsets])
      (by omega) (by omega) (by norm_num)
      (fun id hid _ _ => le_rfl)
      (fun id hid _ _ _ => h3 id hid)
      (by omega) (by omega)
    simpa using this
  · have := (save_argmax_patch 5 (fun _ => 1/2) (fun _ => 7) (fun _ => 0) 0 0).1
      (by intro id hid; simp [patchIds, patchOffsets] at hid; omega)
    exact this

/-! ## Lemmas about the colour-scheme loader -/

theorem loadColourLoop_length (numc : ℕ) (ds : List ColourLine) :
    ∀ (ln : ℕ) (acc res : List ClassColour),
    loadColourLoop numc ds ln acc = Except.ok res → res.length = acc.length := by
  induction ds with
  | nil =>
    intro ln acc res h
    simp only [loadColourLoop, Except.ok.injEq] at h
    rw [← h]
  | cons l ds ih =>
    intro ln acc res h
    simp only [loadColourLoop] at h
    by_cases hln : ln > 2
    · rw [if_pos hln] at h
      by_cases hid : l.id < (numc : ℤ)
      · rw [if_pos hid] at h
        have := ih (ln + 1) _ res h
        rwa [List.length_set] at this
      · rw [if_neg hid] at h
        exact absurd h (by simp)
    · rw [if_neg hln] at h
      exact ih (ln + 1) acc res h

theorem loadColourLoop_ids_ok (numc : ℕ) (ds : List ColourLine) :
    ∀ (ln : ℕ) (acc res : List ClassColour), 2 < ln →
    loadColourLoop numc ds ln acc = Except.ok res → ∀ l ∈ ds, l.id < (numc : ℤ) := by
  induction ds with
  | nil => intro ln acc res _ _ l hl; simp at hl
  | cons l ds ih =>
    intro ln acc res hln h l' hl'
    simp only [loadColourLoop] at h
    rw [if_pos hln] at h
    by_cases hid : l.id < (numc : ℤ)
    · rw [if_pos hid] at h
      rcases List.mem_cons.mp hl' with rfl | hm
      · exact hid
      · exact ih (ln + 1) _ res (by omega) h l' hm
    · rw [if_neg hid] at h
      exact absurd h (by simp)

theorem loadColourLoop_untouched (numc : ℕ) (ds : List ColourLine) :
    ∀ (ln : ℕ) (acc res : List ClassColour) (p : ℕ),
    (∀ l ∈ ds, l.id.toNat ≠ p) →
    loadColourLoop numc ds ln acc = Except.ok res → res[p]? = acc[p]? := by
  induction ds with
  | nil =>
    intro ln acc res p _ h
    simp only [loadColourLoop, Except.ok.injEq] at h
    rw [← h]
  | cons l ds ih =>
    intro ln acc res p hno h
    simp only [loadColourLoop] at h
    by_cases hln : ln > 2
    · rw [if_pos hln] at h
      by_cases hid : l.id < (numc : ℤ)
      · rw [if_pos hid] at h
        have := ih (ln + 1) _ res p (fun l' hl' => hno l' (List.mem_cons_of_mem _ hl')) h
        rw [this, List.getElem?_set_ne (hno l (List.mem_cons_self _ _))]
      · rw [if_neg hid] at h
        exact absurd h (by simp)
    · rw [if_neg hln] at h
      exact ih (ln + 1) acc res p (fun l' hl' => hno l' (List.mem_cons_of_mem _ hl')) h

theorem loadColourLoop_last_write (numc : ℕ) (ds2 : List ColourLine) (l : ColourLine)
    (ln : ℕ) (acc res : List ClassColour) (hln : 2 < ln)
    (hlen : l.id.toNat < acc.length)
    (hno : ∀ l' ∈ ds2, l'.id.toNat ≠ l.id.toNat)
    (h : loadColourLoop numc (l :: ds2) ln acc = Except.ok res) :
    res[l.id.toNat]? = some { label := l.label, r := l.r, g := l.g, b := l.b } := by
  simp only [loadColourLoop] at h
  rw [if_pos hln] at h
  by_cases hid : l.id < (numc : ℤ)
  · rw [if_pos hid] at h
    have hu := loadColourLoop_untouched numc ds2 (ln + 1) _ res l.id.toNat hno h
    rw [hu, List.getElem?_set_self]
    exact hlen
  · rw [if_neg hid] at h
    exact absurd h (by simp)

theorem loadColourLoop_append (numc : ℕ) (xs : List ColourLine) :
    ∀ (ys : List ColourLine) (ln : ℕ) (acc res : List ClassColour), 2 < ln →
    loadColourLoop numc (xs ++ ys) ln acc = Except.ok res →
    ∃ acc', loadColourLoop numc xs ln acc = Except.ok acc' ∧
      loadColourLoop numc ys (ln + xs.length) acc' = Except.ok res ∧
      acc'.length = acc.length := by
  induction xs with
  | nil =>
    intro ys ln acc res hln h
    exact ⟨acc, rfl, by simpa using h, rfl⟩
  | cons x xs ih =>
    intro ys ln acc res hln h
    rw [List.cons_append] at h
    simp only [loadColourLoop] at h
    rw [if_pos hln] at h
    by_cases hid : x.id < (numc : ℤ)
    · rw [if_pos hid] at h
      obtain ⟨acc', h1, h2, h3⟩ := ih ys (ln + 1) _ res (by omega) h
      refine ⟨acc', ?_, ?_, by rwa [List.length_set] at h3⟩
      · simp only [loadColourLoop]
        rw [if_pos hln, if_pos hid]
        exact h1
      · have harith : ln + 1 + xs.length = ln + (x :: xs).length := by
          simp only [List.length_cons]; omega
        rwa [harith] at h2
    · rw [if_neg hid] at h
      exact absurd h (by simp)

/-- Claim C9: the colour-scheme loader skips exactly the first two (header)
lines regardless of their content, checks every parsed row's id against the
class count (success implies every data id is in range), stores each row's
colour at index id with later rows overwriting earlier ones, and returns a
vector of exactly `num_classes` entries. -/
theorem load_colour_scheme_spec (l1 l2 : ColourLine) (ds : List ColourLine) (numc : ℕ) :
    (∀ l1' l2' : ColourLine,
      load_colour_scheme_ (l1 :: l2 :: ds) numc
        = load_colour_scheme_ (l1' :: l2' :: ds) numc) ∧
    (∀ res, load_colour_scheme_ (l1 :: l2 :: ds) numc = Except.ok res →
      res.length = numc ∧
      (∀ l ∈ ds, l.id < (numc : ℤ)) ∧
      (∀ (ds1 ds2 : List ColourLine) (l : ColourLine),
        ds = ds1 ++ l :: ds2 → 0 ≤ l.id →
        (∀ l' ∈ ds2, 0 ≤ l'.id ∧ l'.id ≠ l.id) →
        res[l.id.toNat]? = some { label := l.label, r := l.r, g := l.g, b := l.b })) := by
  have hskip : ∀ (a b : ColourLine),
      load_colour_scheme_ (a :: b :: ds) numc
        = loadColourLoop numc ds 3 (List.replicate numc defaultColour) := by
    intro a b
    unfold load_colour_scheme_
    simp [loadColourLoop]
  constructor
  · intro l1' l2'
    rw [hskip l1 l2, hskip l1' l2']
  · intro res h
    rw [hskip l1 l2] at h
    have hids : ∀ l ∈ ds, l.id < (numc : ℤ) :=
      loadColourLoop_ids_ok numc ds 3 _ res (by omega) h
    refine ⟨?_, hids, ?_⟩
    · rw [loadColourLoop_length numc ds 3 _ res h, List.length_replicate]
    · intro ds1 ds2 l hds hid0 hds2
      subst hds
      obtain ⟨acc', h1, h2, hlen'⟩ :=
        loadColourLoop_append numc ds1 (l :: ds2) 3 _ res (by omega) h
      have hlid : l.id < (numc : ℤ) :=
        hids l (List.mem_append_right _ (List.mem_cons_self _ _))
      have hlenacc : acc'.length = numc := by
        rw [hlen', List.length_replicate]
      exact loadColourLoop_last_write numc ds2 l (3 + ds1.length) acc' res (by omega)
        (by omega)
        (fun l' hl' => by have := hds2 l' hl'; omega)
        h2

/-- Witness for claim C9: two bogus header lines (with out-of-range ids) are
skipped without tripping the id check, and two data rows are stored at their
ids in a result of exactly `num_classes = 2` entries. -/
theorem load_colour_scheme_spec_witness :
    load_colour_scheme_ [⟨"a", 99, 0, 0, 0⟩, ⟨"b", 99, 0, 0, 0⟩,
        ⟨"wall", 0, 1, 2, 3⟩, ⟨"floor", 1, 4, 5, 6⟩] 2
      = load_colour_scheme_ [⟨"c", 5, 7, 7, 7⟩, ⟨"d", 6, 8, 8, 8⟩,
        ⟨"wall", 0, 1, 2, 3⟩, ⟨"floor", 1, 4, 5, 6⟩] 2 ∧
    (∃ res, load_colour_scheme_ [⟨"a", 99, 0, 0, 0⟩, ⟨"b", 99, 0, 0, 0⟩,
        ⟨"wall", 0, 1, 2, 3⟩, ⟨"floor", 1, 4, 5, 6⟩] 2 = Except.ok res ∧
      res.length = 2 ∧
      res[((1 : ℤ)).toNat]? = some { label := "floor", r := 4, g := 5, b := 6 }) := by
  constructor
  · exact (load_colour_scheme_spec ⟨"a", 99, 0, 0, 0⟩ ⟨"b", 99, 0, 0, 0⟩
      [⟨"wall", 0, 1, 2, 3⟩, ⟨"floor", 1, 4, 5, 6⟩] 2).1 ⟨"c", 5, 7, 7, 7⟩ ⟨"d", 6, 8, 8, 8⟩
  · refine ⟨[⟨"wall", 1, 2, 3⟩, ⟨"floor", 4, 5, 6⟩], rfl, ?_, ?_⟩
    · exact ((load_colour_scheme_spec ⟨"a", 99, 0, 0, 0⟩ ⟨"b", 99, 0, 0, 0⟩
        [⟨"wall", 0, 1, 2, 3⟩, ⟨"floor", 1, 4, 5, 6⟩] 2).2 _ rfl).1
    · exact ((load_colour_scheme_spec ⟨"a", 99, 0, 0, 0⟩ ⟨"b", 99, 0, 0, 0⟩
        [⟨"wall", 0, 1, 2, 3⟩, ⟨"floor", 1, 4, 5, 6⟩] 2).2 _ rfl).2.2
        [⟨"wall", 0, 1, 2, 3⟩] [] ⟨"floor", 1, 4, 5, 6⟩ rfl (by decide)
        (fun l' hl' => by simp at hl')
